import Mathlib

/-!
Shallow embedding of the babyjson recursive-descent JSON parser
(`src/main.cpp`) and proofs about it.

Modelling conventions:
* Input text is a `List Char`; the `std::string_view` slices the C++ code
  recurses on are always suffixes of the original buffer, modelled with
  `List.drop`.
* `size_t` indices and lengths are `Nat`.
* `std::string_view::operator[]` at an index `≥ size` is undefined behaviour
  in the source; the model reads a NUL character there (`charAt`) and, in the
  instrumented runner, raises a flag recording that an out-of-range read
  happened (the separator inspections at lines 193, 224 and 237 of
  `src/main.cpp` are the only unguarded reads).
* The C++ recursion (`parse` calling itself through the array/object loops)
  terminates because every recursive call works on a strictly shorter suffix
  and every loop iteration strictly advances its cursor.  The model makes the
  very same call graph structural by threading a fuel counter that every step
  decrements; `2 * length + 4` units are strictly more than the deepest
  possible chain of steps (a `parse` activation on a slice of length `n`
  needs at most `2*n + 1` units, a loop activation at cursor `i` at most
  `2*(n-i) + 2`), so the fuel-exhausted branch is unreachable from the
  `parse` wrapper.
-/

/-- JSON value tree produced by the parser; mirrors `JSONObject` and its
`std::variant` in `src/main.cpp` lines 16-56.  `int` is the C++ 32-bit `int`
(range enforced at parse time by `try_parse_int`); `double` is abstracted as
the exact decimal rational denoted by the literal (the C++ `double` rounds it
to the nearest binary64 value, a refinement of this model that no claim here
depends on); strings are `List Char`; `JSONDict` is modelled as an
insertion-ordered association list whose keys `try_emplace` keeps unique. -/
inductive JSONObject where
  | null : JSONObject
  | bool (b : Bool) : JSONObject
  | int (n : Int) : JSONObject
  | double (q : ℚ) : JSONObject
  | str (s : List Char) : JSONObject
  | list (l : List JSONObject) : JSONObject
  | dict (d : List (List Char × JSONObject)) : JSONObject

/-- Character read `json[i]`; out-of-range reads (undefined behaviour for
`std::string_view`) are modelled as NUL, the byte a NUL-terminated top-level
buffer would yield at the first out-of-range position. -/
def charAt (s : List Char) (i : Nat) : Char :=
  s.getD i (Char.ofNat 0)

/-- Whitespace set of the skip branch, line 101 of `src/main.cpp`.  The C++
argument is the C string `" \n\r\t\v\f\0"` passed as `const char *`: the
embedded `\0` terminates it, so the effective set has six characters and does
NOT contain NUL. -/
def wsSet : List Char :=
  [' ', '\n', '\r', '\t', Char.ofNat 11, Char.ofNat 12]

/-- Model of `json.find_first_not_of(" \n\r\t\v\f\0")` (line 101): index of
the first character outside `wsSet`, `none` for `npos`. -/
def firstNotWs : List Char → Option Nat
  | [] => none
  | c :: rest =>
    if c ∈ wsSet then (firstNotWs rest).map (· + 1) else some 0

/-- Escape resolver `unescaped_char`, lines 70-93 of `src/main.cpp`. -/
def unescaped_char (c : Char) : Char :=
  if c = 'n' then '\n'
  else if c = 'r' then '\r'
  else if c = '0' then Char.ofNat 0
  else if c = 't' then '\t'
  else if c = 'v' then Char.ofNat 11
  else if c = 'f' then Char.ofNat 12
  else if c = 'b' then Char.ofNat 8
  else if c = 'a' then Char.ofNat 7
  else c

/-- Two-state string scanner phase, lines 140-144 of `src/main.cpp`. -/
inductive Phase where
  | raw : Phase
  | esc : Phase
deriving DecidableEq

/-- String-body scanner, lines 146-170 of `src/main.cpp`, run on the input
after the opening quote.  Returns the accumulated characters, the number of
characters consumed from its input (including a closing quote when met), and
whether a closing quote was met in the raw phase. -/
def scanStr : List Char → Phase → List Char × Nat × Bool
  | [], _ => ([], 0, false)
  | c :: rest, .raw =>
    if c = '\\' then
      let r := scanStr rest .esc
      (r.1, r.2.1 + 1, r.2.2)
    else if c = '"' then ([], 1, true)
    else
      let r := scanStr rest .raw
      (c :: r.1, r.2.1 + 1, r.2.2)
  | c :: rest, .esc =>
    let r := scanStr rest .raw
    (unescaped_char c :: r.1, r.2.1 + 1, r.2.2)

/-- Decimal digit test, `'0' <= c && c <= '9'` (line 119). -/
def isDigit (c : Char) : Bool :=
  '0' ≤ c && c ≤ '9'

/-- Sign test `c == '+' || c == '-'` (line 119). -/
def isSign (c : Char) : Bool :=
  c = '+' || c = '-'

/-- Longest run of decimal digits at the front of the input, with the rest. -/
def takeDigits : List Char → List Char × List Char
  | [] => ([], [])
  | c :: rest =>
    if isDigit c then
      let r := takeDigits rest
      (c :: r.1, r.2)
    else ([], c :: rest)

/-- Greedy match of the optional fraction group `(\.[0-9]*)?` at the front
of the input: the matched text and the rest.  An absent dot matches the
empty string. -/
def fracScan : List Char → List Char × List Char
  | [] => ([], [])
  | c :: r => if c = '.' then (c :: (takeDigits r).1, (takeDigits r).2) else ([], c :: r)

/-- Greedy match of the optional exponent group `([eE][+-]?[0-9]+)?` at the
front of the input: the matched text.  A malformed exponent (no digits after
`e`/`E` and the optional sign) backtracks to matching the empty string, as
ECMAScript optional groups do. -/
def expScan : List Char → List Char
  | [] => []
  | [_] => []
  | e :: c2 :: r3 =>
    if e = 'e' || e = 'E' then
      if isSign c2 then
        if (takeDigits r3).1 = [] then [] else e :: c2 :: (takeDigits r3).1
      else
        if (takeDigits (c2 :: r3)).1 = [] then [] else e :: (takeDigits (c2 :: r3)).1
    else []

/-- ECMAScript-greedy match of the unsigned part
`[0-9]+(\.[0-9]*)?([eE][+-]?[0-9]+)?` of the numeric regex (line 121)
anchored at the front of the input; `none` when no digit starts here.
Greedy backtracking and longest-match coincide for this regex: the optional
groups start with `.`/`e`/`E`, which can never extend a digit run. -/
def numTail (t : List Char) : Option (List Char) :=
  let d := takeDigits t
  if d.1 = [] then none
  else
    let fr := fracScan d.2
    some (d.1 ++ fr.1 ++ expScan fr.2)

/-- ECMAScript-greedy match of the regex `[+-]?[0-9]+(\.[0-9]*)?([eE][+-]?[0-9]+)?`
(line 121) anchored at the current position: an optional sign, then the
unsigned part.  `none` when no match starts here. -/
def numMatchAt (s : List Char) : Option (List Char) :=
  match s with
  | c :: rest =>
    if isSign c then (numTail rest).map (fun m => c :: m) else numTail (c :: rest)
  | [] => none

/-- Model of `std::regex_search` over the whole remaining input (line 123):
the match found at the leftmost position admitting one. -/
def numSearch : List Char → Option (List Char)
  | [] => none
  | c :: rest =>
    match numMatchAt (c :: rest) with
    | some m => some m
    | none => numSearch rest

/-- Numeric value of a digit string. -/
def digitsVal (s : List Char) : Nat :=
  s.foldl (fun a c => a * 10 + (c.toNat - '0'.toNat)) 0

/-- Model of `try_parse_num<int>` (lines 58-68): `std::from_chars` for `int`
accepts `[-]?digits` (no `'+'`), must consume the whole string, and reports
`result_out_of_range` (hence failure here) outside the 32-bit range. -/
def try_parse_int (s : List Char) : Option Int :=
  let p : Bool × List Char :=
    match s with
    | '-' :: rest => (true, rest)
    | _ => (false, s)
  if p.2 ≠ [] ∧ p.2.all isDigit then
    let v : Int := if p.1 then -(digitsVal p.2 : Int) else (digitsVal p.2 : Int)
    if -(2 ^ 31) ≤ v ∧ v < 2 ^ 31 then some v else none
  else none

/-- Model of `try_parse_num<double>` (lines 58-68): `std::from_chars` for
`double` in the default general format accepts
`[-]? (digits [. digits*] | . digits+) ([eE][+-]?digits+)?` (no leading
`'+'`), must consume the whole string, and reports `result_out_of_range`
when the value rounds to infinity or a nonzero value rounds to zero.  The
value is kept as the exact decimal rational (see `JSONObject.double`); the
`inf`/`nan` alternatives cannot arise from the recognizer's matches. -/
def try_parse_double (s : List Char) : Option ℚ :=
  let p : Bool × List Char :=
    match s with
    | '-' :: rest => (true, rest)
    | _ => (false, s)
  let ip := takeDigits p.2
  let fp : List Char × List Char :=
    match ip.2 with
    | '.' :: r => takeDigits r
    | _ => ([], ip.2)
  if ip.1 = [] ∧ fp.1 = [] then none
  else
    let ex : Option Int × List Char :=
      match fp.2 with
      | e :: r =>
        if e = 'e' || e = 'E' then
          let p4 : Int × List Char :=
            match r with
            | c2 :: r3 =>
              if c2 = '+' then (1, r3)
              else if c2 = '-' then (-1, r3)
              else (1, c2 :: r3)
            | [] => (1, [])
          let ed := takeDigits p4.2
          if ed.1 = [] then (none, e :: r) else (some (p4.1 * (digitsVal ed.1 : Int)), ed.2)
        else (none, e :: r)
      | [] => (none, [])
    if ex.2 ≠ [] then none
    else
      let mant : ℚ := (digitsVal ip.1 : ℚ) + (digitsVal fp.1 : ℚ) / ((10 : ℚ) ^ fp.1.length)
      let v0 : ℚ := mant * (10 : ℚ) ^ (ex.1.getD 0)
      let v : ℚ := if p.1 then -v0 else v0
      if (2 : ℚ) ^ 1024 - (2 : ℚ) ^ 970 ≤ |v| then none
      else if v ≠ 0 ∧ |v| < (2 : ℚ) ^ (-1075 : Int) then none
      else some v

/-- Numeric branch of the parser, lines 119-135 of `src/main.cpp`: regex
search, then `int` interpretation, then `double` interpretation, falling
through to the terminal `(Null, 0)` when all fail. -/
def numBranch (s : List Char) : JSONObject × Nat × Bool :=
  match numSearch s with
  | none => (.null, 0, false)
  | some m =>
    match try_parse_int m with
    | some v => (.int v, m.length, false)
    | none =>
      match try_parse_double m with
      | some q => (.double q, m.length, false)
      | none => (.null, 0, false)

/-- Activation records of the C++ engine: a `parse(json)` call (line 95), the
array element loop (lines 178-197) and the object member loop (lines
205-241), each carrying the slice it works on and its loop state. -/
inductive Frame where
  | value (s : List Char) : Frame
  | larr (s : List Char) (i : Nat) (acc : List JSONObject) (oob : Bool) : Frame
  | dobj (s : List Char) (i : Nat) (acc : List (List Char × JSONObject)) (oob : Bool) : Frame

/-- Membership test backing `try_emplace` on the association-list model of
`std::unordered_map`. -/
def containsKey (d : List (List Char × JSONObject)) (k : List Char) : Bool :=
  d.any (fun p => p.1 = k)

/-- Instrumented engine: one step per C++ `parse` activation or loop
iteration, fuel-counted (see the header note; the fuel-0 branch is
unreachable from `parseFull`).  Output is the produced value, the consumed
length, and a flag set when any `json[i]` read was out of range. -/
def run : Nat → Frame → JSONObject × Nat × Bool
  | 0, _ => (.null, 0, false)
  | fuel + 1, .value s =>
    match s with
    | [] => (.null, 0, false)
    | c :: rest =>
      match firstNotWs (c :: rest) with
      | some (off + 1) =>
        let r := run fuel (.value ((c :: rest).drop (off + 1)))
        (r.1, r.2.1 + (off + 1), r.2.2)
      | _ =>
        if c = 't' then (.bool true, 4, false)
        else if c = 'f' then (.bool false, 5, false)
        else if isDigit c || isSign c then numBranch (c :: rest)
        else if c = '"' then
          let r := scanStr rest .raw
          (.str r.1, 1 + r.2.1, false)
        else if c = '[' then run fuel (.larr (c :: rest) 1 [] false)
        else if c = Char.ofNat 123 then run fuel (.dobj (c :: rest) 1 [] false)
        else (.null, 0, false)
  | fuel + 1, .larr s i acc oob =>
    if i < s.length then
      if charAt s i = ']' then (.list acc, i + 1, oob)
      else
        let r := run fuel (.value (s.drop i))
        if r.2.1 = 0 then (.list acc, 0, oob || r.2.2)
        else
          let i2 := i + r.2.1
          let oob2 := oob || r.2.2 || decide (s.length ≤ i2)
          let i3 := if charAt s i2 = ',' then i2 + 1 else i2
          run fuel (.larr s i3 (acc ++ [r.1]) oob2)
    else (.list acc, i, oob)
  | fuel + 1, .dobj s i acc oob =>
    if i < s.length then
      if charAt s i = Char.ofNat 125 then (.dict acc, i + 1, oob)
      else
        let kr := run fuel (.value (s.drop i))
        if kr.2.1 = 0 then (.dict acc, 0, oob || kr.2.2)
        else
          let i2 := i + kr.2.1
          match kr.1 with
          | .str key =>
            let oob2 := oob || kr.2.2 || decide (s.length ≤ i2)
            let i3 := if charAt s i2 = ':' then i2 + 1 else i2
            let vr := run fuel (.value (s.drop i3))
            if vr.2.1 = 0 then (.dict acc, 0, oob2 || vr.2.2)
            else
              let i4 := i3 + vr.2.1
              let acc2 := if containsKey acc key then acc else acc ++ [(key, vr.1)]
              let oob3 := oob2 || vr.2.2 || decide (s.length ≤ i4)
              let i5 := if charAt s i4 = ',' then i4 + 1 else i4
              run fuel (.dobj s i5 acc2 oob3)
          | _ => (.dict acc, 0, oob || kr.2.2)
    else (.dict acc, i, oob)

/-- Instrumented top-level parse; the fuel is strictly larger than the
deepest chain of steps any input of this length can drive (header note). -/
def parseFull (s : List Char) : JSONObject × Nat × Bool :=
  run (2 * s.length + 4) (.value s)

/-- The parser's public contract `parse(text) -> (Value, consumedLength)`
(line 95 of `src/main.cpp`). -/
def parse (s : List Char) : JSONObject × Nat :=
  ((parseFull s).1, (parseFull s).2.1)

/-- True when parsing this input performs some out-of-range `json[i]` read. -/
def parseOOB (s : List Char) : Bool :=
  (parseFull s).2.2

/-- Key uniqueness of one association list (the `Dict` invariant). -/
def nodupKeys : List (List Char × JSONObject) → Bool
  | [] => true
  | (k, _) :: rest => !(containsKey rest k) && nodupKeys rest

mutual

/-- Every `dict` node anywhere in the value tree has pairwise distinct keys. -/
def keysOk : JSONObject → Bool
  | .list l => keysOkL l
  | .dict d => nodupKeys d && keysOkD d
  | _ => true

/-- List version of `keysOk`. -/
def keysOkL : List JSONObject → Bool
  | [] => true
  | x :: xs => keysOk x && keysOkL xs

/-- Association-list version of `keysOk` (checks the values). -/
def keysOkD : List (List Char × JSONObject) → Bool
  | [] => true
  | (_, v) :: xs => keysOk v && keysOkD xs

end

/-- Remainder left after consuming the optional exponent group
`([eE][+-]?digits)?` at the front of the input; an input that starts the
group without completing it (no digits) is left in place, so a nonempty
remainder means the string does not end in a well-formed optional
exponent. -/
def expCheck : List Char → List Char
  | [] => []
  | [e] => [e]
  | e :: c2 :: r3 =>
    if e = 'e' || e = 'E' then
      if isSign c2 then
        if (takeDigits r3).1 = [] then e :: c2 :: r3 else (takeDigits r3).2
      else
        if (takeDigits (c2 :: r3)).1 = [] then e :: c2 :: r3 else (takeDigits (c2 :: r3)).2
    else e :: c2 :: r3

/-- Modelled from the spec words: decides whether a whole string fits the
unsigned grammar part `digits(.digits?)?([eE][+-]?digits)?` — nonempty
digits, then the optional fraction group, then the optional exponent group,
with nothing left over. -/
def fitsNumTail (t : List Char) : Bool :=
  let d := takeDigits t
  if d.1 = [] then false
  else decide (expCheck (fracScan d.2).2 = [])

/-- Modelled from the spec words "find the longest prefix matching the
grammar `[+-]?digits(.digits?)?([eE][+-]?digits)?`": decides whether a whole
string fits that grammar.  Spec-side checker, used to compare the behaviour
the spec describes with what the code's unanchored `regex_search` does. -/
def fitsNumGrammar : List Char → Bool
  | [] => false
  | c :: r => if isSign c then fitsNumTail r else fitsNumTail (c :: r)

/-- Lookup in a parsed `Dict` value (the reading a `JSONDict` consumer does);
`none` on a non-`dict` value or an absent key. -/
def dictGet (v : JSONObject) (k : List Char) : Option JSONObject :=
  match v with
  | .dict d => (d.find? (fun p => p.1 = k)).map (fun p => p.2)
  | _ => none

/-- Input of the spec's worked object example,
`{"math": true, "english": "good\n"}` (35 characters; `\n` here is the
two-character escape sequence in the JSON text). -/
def exDict : List Char :=
  "\x7b\"math\": true, \"english\": \"good\\n\"\x7d".toList

example : parse "t".toList = (.bool true, 4) := rfl
example : parse "f".toList = (.bool false, 5) := rfl
example : parse "".toList = (.null, 0) := rfl
example : parse "42".toList = (.int 42, 2) := rfl
example : parse "[1,2,3]".toList = (.list [.int 1, .int 2, .int 3], 7) := rfl

/-- Unfolding of one engine step on a `parse` activation whose input starts
with a non-whitespace character: the whitespace branch is skipped and the
first-character dispatch chain of lines 107-244 runs. -/
theorem run_value_cons (fuel : Nat) (c : Char) (rest : List Char)
    (hws : c ∉ wsSet) :
    run (fuel + 1) (.value (c :: rest)) =
      if c = 't' then (.bool true, 4, false)
      else if c = 'f' then (.bool false, 5, false)
      else if isDigit c || isSign c then numBranch (c :: rest)
      else if c = '"' then
        (JSONObject.str (scanStr rest .raw).1, 1 + (scanStr rest .raw).2.1, false)
      else if c = '[' then run fuel (.larr (c :: rest) 1 [] false)
      else if c = Char.ofNat 123 then run fuel (.dobj (c :: rest) 1 [] false)
      else (.null, 0, false) := by
  have h0 : firstNotWs (c :: rest) = some 0 := by
    simp [firstNotWs, hws]
  rw [run, h0]

/-- Unfolding of one engine step on a `parse` activation whose input starts
with a space followed by a non-whitespace character: the skip branch of
lines 101-105 recurses past the space and adds 1 to whatever consumed length
the recursive call reports — even when that recursive call reports 0. -/
theorem run_value_ws (fuel : Nat) (c : Char) (rest : List Char)
    (hws : c ∉ wsSet) :
    run (fuel + 1) (.value (' ' :: c :: rest)) =
      ((run fuel (.value (c :: rest))).1,
       (run fuel (.value (c :: rest))).2.1 + 1,
       (run fuel (.value (c :: rest))).2.2) := by
  have hsp : (' ' : Char) ∈ wsSet := by decide
  have h1 : firstNotWs (' ' :: c :: rest) = some 1 := by
    simp [firstNotWs, hws, hsp]
  rw [run, h1]
  rfl

/-- Length of an unterminated scan: when the scanner never meets a closing
quote in the raw phase it consumes its whole input. -/
theorem scanStr_unterminated (s : List Char) :
    ∀ ph, (scanStr s ph).2.2 = false → (scanStr s ph).2.1 = s.length := by
  induction s with
  | nil => intro ph _; cases ph <;> rfl
  | cons c rest ih =>
    intro ph h
    cases ph with
    | raw =>
      by_cases h1 : c = '\\'
      · simp only [scanStr, h1, if_true, if_pos rfl] at h ⊢
        simp [ih .esc h]
      · by_cases h2 : c = '"'
        · simp [scanStr, h1, h2] at h
        · simp only [scanStr, h1, h2, if_false, ite_false] at h ⊢
          simp at h ⊢
          simp [ih .raw h]
    | esc =>
      simp only [scanStr] at h ⊢
      simp at h ⊢
      simp [ih .raw h]

/-- C7: for every input whose first character is `t` the parser returns
`(Bool true, 4)`, and for every input whose first character is `f` it
returns `(Bool false, 5)`, inspecting no further characters and checking no
boundary; in particular `parse "truefoo" = (Bool true, 4)`
(lines 107-117 of `src/main.cpp`). -/
theorem c7_bool_literal_no_verification :
    (∀ rest : List Char, parse ('t' :: rest) = (.bool true, 4)) ∧
    (∀ rest : List Char, parse ('f' :: rest) = (.bool false, 5)) ∧
    parse "truefoo".toList = (.bool true, 4) := by
  refine ⟨?_, ?_, rfl⟩
  · intro rest
    have hL : 2 * ('t' :: rest).length + 4 = (2 * rest.length + 5) + 1 := by
      simp [List.length_cons]; ring
    have h : parseFull ('t' :: rest) = (.bool true, 4, false) := by
      rw [parseFull, hL, run_value_cons _ _ _ (by decide)]
      simp
    simp [parse, h]
  · intro rest
    have hL : 2 * ('f' :: rest).length + 4 = (2 * rest.length + 5) + 1 := by
      simp [List.length_cons]; ring
    have h : parseFull ('f' :: rest) = (.bool false, 5, false) := by
      rw [parseFull, hL, run_value_cons _ _ _ (by decide)]
      simp
    simp [parse, h]

/-- C8: an unterminated string is not an error: whenever the scanner runs
off the end of the input without meeting an unescaped closing quote, the
parser returns the text accumulated so far (escapes resolved) and a nonzero
consumed length equal to the whole input length (lines 137-171 of
`src/main.cpp`). -/
theorem c8_unterminated_string_tolerated (rest : List Char)
    (h : (scanStr rest .raw).2.2 = false) :
    parse ('"' :: rest) = (.str (scanStr rest .raw).1, ('"' :: rest).length) ∧
    ('"' :: rest).length ≠ 0 := by
  have hL : 2 * (('"' : Char) :: rest).length + 4 = (2 * rest.length + 5) + 1 := by
    simp [List.length_cons]; ring
  have hp : parseFull ('"' :: rest) =
      (.str (scanStr rest .raw).1, 1 + (scanStr rest .raw).2.1, false) := by
    rw [parseFull, hL, run_value_cons _ _ _ (by decide)]
    simp [show (isDigit '"' || isSign '"') = false from by decide]
  refine ⟨?_, by simp⟩
  rw [parse, hp]
  simp [scanStr_unterminated _ _ h, List.length_cons]
  omega

/-- Witness for C8 at the concrete unterminated input `"abc`. -/
theorem c8_unterminated_string_tolerated_witness :
    (scanStr "abc".toList .raw).2.2 = false ∧
    (parse ('"' :: "abc".toList) = (.str "abc".toList, ('"' :: "abc".toList).length) ∧
     ('"' :: "abc".toList).length ≠ 0) :=
  ⟨by decide, c8_unterminated_string_tolerated "abc".toList (by decide)⟩

/-- C9: the escape resolver maps exactly `n,r,0,t,v,f,b,a` to the
corresponding control characters and every other character to itself, and
`parse "\"a\tb\"" = (Text "a<tab>b", 6)` with the escape resolved
(lines 70-93 and 137-171 of `src/main.cpp`). -/
theorem c9_escape_resolver :
    (unescaped_char 'n' = '\n' ∧ unescaped_char 'r' = '\r' ∧
     unescaped_char '0' = Char.ofNat 0 ∧ unescaped_char 't' = '\t' ∧
     unescaped_char 'v' = Char.ofNat 11 ∧ unescaped_char 'f' = Char.ofNat 12 ∧
     unescaped_char 'b' = Char.ofNat 8 ∧ unescaped_char 'a' = Char.ofNat 7) ∧
    (∀ c : Char, c ∉ (['n', 'r', '0', 't', 'v', 'f', 'b', 'a'] : List Char) →
      unescaped_char c = c) ∧
    parse "\"a\\tb\"".toList = (.str "a\tb".toList, 6) := by
  refine ⟨by decide, ?_, rfl⟩
  intro c hc
  simp only [List.mem_cons, List.not_mem_nil, or_false, not_or] at hc
  obtain ⟨h1, h2, h3, h4, h5, h6, h7, h8⟩ := hc
  simp [unescaped_char, h1, h2, h3, h4, h5, h6, h7, h8]

/-- Witness for C9's pass-through case at the concrete character `"`. -/
theorem c9_escape_resolver_witness :
    ('"' : Char) ∉ (['n', 'r', '0', 't', 'v', 'f', 'b', 'a'] : List Char) ∧
    unescaped_char '"' = '"' :=
  ⟨by decide, c9_escape_resolver.2.1 '"' (by decide)⟩

/-- C10: the consumed length is not bounded by the input length: the
one-character inputs `t` and `f` yield consumed lengths 4 and 5
(lines 107-117 of `src/main.cpp`). -/
theorem c10_consumed_exceeds_input :
    parse "t".toList = (.bool true, 4) ∧ "t".toList.length < 4 ∧
    parse "f".toList = (.bool false, 5) ∧ "f".toList.length < 5 :=
  ⟨rfl, by decide, rfl, by decide⟩

/-- C5: contrary to the spec, NUL is NOT in the whitespace set: the C string
literal `" \n\r\t\v\f\0"` passed to `find_first_not_of` is terminated by its
own `\0`, so an input starting with NUL falls through the dispatch to the
terminal failure `(Null, 0)` instead of being skipped like the space in the
otherwise-identical second input (line 101 of `src/main.cpp`). -/
theorem c5_nul_is_not_whitespace :
    (Char.ofNat 0) ∉ wsSet ∧
    parse (Char.ofNat 0 :: "true".toList) = (.null, 0) ∧
    parse (' ' :: "true".toList) = (.bool true, 5) :=
  ⟨by decide, rfl, rfl⟩

example : (parse exDict).2 = 35 := rfl

/-- C1 counterexample: the recursive element parse of the slice `", 3]"`
(what the array loop reaches inside `"[1, , 3]"` after the first element,
its comma and the following space) reports consumed length 0, yet the
top-level parse of `"[1, , 3]"` returns consumed length 8 with a
three-element list — not `(List, 0)`. -/
theorem c1_counterexample :
    parse ", 3]".toList = (.null, 0) ∧
    parse "[1, , 3]".toList = (.list [.int 1, .null, .int 3], 8) :=
  ⟨rfl, rfl⟩

/-- C1 as amended: a zero-length child aborts its enclosing container with
consumed length 0 only when the child slice starts directly at the failing
construct; the whitespace branch (lines 101-105) adds the skip length to the
child's consumed length even when that child failed with 0, so a failing
element preceded by whitespace reports a nonzero consumed length and the
container keeps going, recording the `Null` failure value as an element.
Hence `parse "[1, , 3]" = (List [Int 1, Null, Int 3], 8)`, while the
whitespace-free `parse "[1,,3]"` does abort with consumed length 0 (keeping
the partially built list as the returned payload), and that zero does
propagate through an enclosing array in `parse "[[1,,3]]"`. -/
theorem c1_failure_masked_by_whitespace :
    (∀ (fuel : Nat) (c : Char) (rest : List Char), c ∉ wsSet →
      run (fuel + 1) (.value (' ' :: c :: rest)) =
        ((run fuel (.value (c :: rest))).1,
         (run fuel (.value (c :: rest))).2.1 + 1,
         (run fuel (.value (c :: rest))).2.2)) ∧
    parse "[1, , 3]".toList = (.list [.int 1, .null, .int 3], 8) ∧
    parse "[1,,3]".toList = (.list [.int 1], 0) ∧
    parse "[[1,,3]]".toList = (.list [], 0) :=
  ⟨run_value_ws, rfl, rfl, rfl⟩

/-- Witness for C1's whitespace-masking rule at the concrete input `" ,"`:
the child parse of `","` fails with consumed length 0, yet the
whitespace-skipping activation reports consumed length 1. -/
theorem c1_failure_masked_by_whitespace_witness :
    (',' : Char) ∉ wsSet ∧
    run (5 + 1) (.value (' ' :: ',' :: [])) =
      ((run 5 (.value (',' :: []))).1,
       (run 5 (.value (',' :: []))).2.1 + 1,
       (run 5 (.value (',' :: []))).2.2) :=
  ⟨by decide, c1_failure_masked_by_whitespace.1 5 ',' [] (by decide)⟩

/-- C2 counterexample: parsing `"[1"` performs an out-of-range `json[i]`
read (the `json[i] == ','` inspection at line 193 of `src/main.cpp` runs at
`i = 2` on a slice of size 2). -/
theorem c2_counterexample : parseOOB "[1".toList = true := rfl

/-- C2 as amended: the engine is total — modelled as a total Lean function
it returns a `(Value, consumedLength)` pair for every input — but the
comma/colon separator inspections after consuming an element are NOT always
in bounds: `"[1"` drives the array loop's `json[i] == ','` read (line 193)
out of range, and `{"a"` drives the object loop's `json[i] == ':'` read
(line 224) out of range; a well-formed input such as `"[1,2]"` performs
no out-of-range read.  (Out-of-range reads are undefined behaviour in the
source; the model reads NUL there and records the access in `parseOOB`.) -/
theorem c2_oob_separator_reads :
    parseOOB "[1".toList = true ∧
    parse "[1".toList = (.list [.int 1], 2) ∧
    parseOOB "\x7b\"a\"".toList = true ∧
    parse "\x7b\"a\"".toList = (.dict [], 0) ∧
    parseOOB "[1,2]".toList = false ∧
    parse "[1,2]".toList = (.list [.int 1, .int 2], 5) :=
  ⟨rfl, rfl, rfl, rfl, rfl, rfl⟩

/-- C3 counterexample: on input `"+a1"` (first character `'+'`, so the
numeric branch is taken) no prefix of the input fits the numeric grammar —
all four prefixes are rejected by the spec-side checker — yet the parser
returns `(Int 1, 1)`: the unanchored `regex_search` found the match `"1"`
elsewhere in the input, its value was kept and its length consumed. -/
theorem c3_counterexample :
    parse "+a1".toList = (.int 1, 1) ∧
    fitsNumGrammar [] = false ∧
    fitsNumGrammar ['+'] = false ∧
    fitsNumGrammar "+a".toList = false ∧
    fitsNumGrammar "+a1".toList = false :=
  ⟨rfl, by decide, by decide, by decide, by decide⟩

/-- C4 counterexample: the spec's worked object example
`{"math": true, "english": "good\n"}` is 35 characters long, not 38, and
the parser consumes 35 characters on it. -/
theorem c4_counterexample :
    exDict.length = 35 ∧ (parse exDict).2 = 35 ∧ exDict.length ≠ 38 :=
  ⟨by decide, rfl, by decide⟩

/-- C4 as amended: parsing `{"math": true, "english": "good\n"}` yields a
`Dict` mapping `"math"` to `Bool true` and `"english"` to `Text "good\n"`
(escape resolved to a newline), with consumed length equal to the full
input length, which is 35 (the spec misstates it as 38). -/
theorem c4_object_example :
    (parse exDict).1 =
      .dict [("math".toList, .bool true), ("english".toList, .str "good\n".toList)] ∧
    dictGet (parse exDict).1 "math".toList = some (.bool true) ∧
    dictGet (parse exDict).1 "english".toList = some (.str "good\n".toList) ∧
    (parse exDict).2 = exDict.length ∧
    exDict.length = 35 :=
  ⟨rfl, rfl, rfl, rfl, by decide⟩


theorem containsKey_append (a b : List (List Char × JSONObject)) (k : List Char) :
    containsKey (a ++ b) k = (containsKey a k || containsKey b k) := by
  simp [containsKey, List.any_append]

theorem containsKey_cons (k0 : List Char) (v0 : JSONObject)
    (rest : List (List Char × JSONObject)) (k : List Char) :
    containsKey ((k0, v0) :: rest) k = (decide (k0 = k) || containsKey rest k) := by
  simp [containsKey]

theorem nodupKeys_append_single (acc : List (List Char × JSONObject))
    (k : List Char) (v : JSONObject)
    (h1 : nodupKeys acc = true) (h2 : containsKey acc k = false) :
    nodupKeys (acc ++ [(k, v)]) = true := by
  induction acc with
  | nil => simp [nodupKeys, containsKey]
  | cons p rest ih =>
    obtain ⟨k0, v0⟩ := p
    rw [containsKey_cons, Bool.or_eq_false_iff] at h2
    simp only [nodupKeys, Bool.and_eq_true, Bool.not_eq_true'] at h1
    show (!containsKey (rest ++ [(k, v)]) k0 && nodupKeys (rest ++ [(k, v)])) = true
    rw [containsKey_append, Bool.and_eq_true, Bool.not_eq_true', Bool.or_eq_false_iff]
    refine ⟨⟨h1.1, ?_⟩, ih h1.2 h2.2⟩
    simp only [containsKey, List.any_cons, List.any_nil, Bool.or_false,
      decide_eq_false_iff_not]
    have hk : ¬(k0 = k) := by simpa using h2.1
    exact fun h => hk h.symm

theorem keysOkL_append (a b : List JSONObject) :
    keysOkL (a ++ b) = (keysOkL a && keysOkL b) := by
  induction a with
  | nil => simp [keysOkL]
  | cons x xs ih => simp [keysOkL, ih, Bool.and_assoc]

theorem keysOkD_append_single (acc : List (List Char × JSONObject))
    (k : List Char) (v : JSONObject) :
    keysOkD (acc ++ [(k, v)]) = (keysOkD acc && keysOk v) := by
  induction acc with
  | nil => simp [keysOkD]
  | cons p rest ih =>
    obtain ⟨k0, v0⟩ := p
    simp [keysOkD, ih, Bool.and_assoc]

theorem keysOk_numBranch (s : List Char) : keysOk (numBranch s).1 = true := by
  rw [numBranch]
  cases hn : numSearch s with
  | none => simp [keysOk]
  | some m =>
    cases hi : try_parse_int m with
    | some v => simp [hi, keysOk]
    | none =>
      cases hd : try_parse_double m with
      | some q => simp [hi, hd, keysOk]
      | none => simp [hi, hd, keysOk]

/-- Dispatch form of an engine step on a nonempty `parse` activation that
does not take the whitespace-skip branch. -/
theorem run_value_nonskip (fuel : Nat) (c : Char) (rest : List Char)
    (h : ∀ k, firstNotWs (c :: rest) ≠ some (k + 1)) :
    run (fuel + 1) (.value (c :: rest)) =
      if c = 't' then (.bool true, 4, false)
      else if c = 'f' then (.bool false, 5, false)
      else if isDigit c || isSign c then numBranch (c :: rest)
      else if c = '"' then
        (JSONObject.str (scanStr rest .raw).1, 1 + (scanStr rest .raw).2.1, false)
      else if c = '[' then run fuel (.larr (c :: rest) 1 [] false)
      else if c = Char.ofNat 123 then run fuel (.dobj (c :: rest) 1 [] false)
      else (.null, 0, false) := by
  rw [run]
  cases hfw : firstNotWs (c :: rest) with
  | none => rfl
  | some off =>
    cases off with
    | zero => rfl
    | succ k => exact absurd hfw (h k)

/-- Invariant carried by an engine activation record: loop frames hold
accumulators whose own keys are already unique and whose values already
satisfy the key-uniqueness invariant. -/
def frameOK : Frame → Prop
  | .value _ => True
  | .larr _ _ acc _ => keysOkL acc = true
  | .dobj _ _ acc _ => nodupKeys acc = true ∧ keysOkD acc = true

/-- Every value the engine produces from an invariant-respecting frame has
pairwise-distinct keys in every `dict` node: `try_emplace` (line 236 of
`src/main.cpp`) inserts only keys not already present. -/
theorem run_keysOk :
    ∀ (fuel : Nat) (fr : Frame), frameOK fr → keysOk (run fuel fr).1 = true := by
  intro fuel
  induction fuel with
  | zero => intro fr _; cases fr <;> simp [run, keysOk]
  | succ fuel ih =>
    intro fr hfr
    cases fr with
    | value s =>
      cases s with
      | nil => simp [run, keysOk]
      | cons c rest =>
        by_cases hskip : ∃ k, firstNotWs (c :: rest) = some (k + 1)
        · obtain ⟨k, hfw⟩ := hskip
          rw [run, hfw]
          exact ih (.value ((c :: rest).drop (k + 1))) trivial
        · push_neg at hskip
          rw [run_value_nonskip fuel c rest hskip]
          split_ifs with h1 h2 h3 h4 h5 h6
          · simp [keysOk]
          · simp [keysOk]
          · exact keysOk_numBranch (c :: rest)
          · simp [keysOk]
          · exact ih (.larr (c :: rest) 1 [] false) (by simp [frameOK, keysOkL])
          · exact ih (.dobj (c :: rest) 1 [] false) ⟨rfl, by simp [keysOkD]⟩
          · simp [keysOk]
    | larr s i acc oob =>
      simp only [frameOK] at hfr
      simp only [run]
      by_cases hlt : i < s.length
      · rw [if_pos hlt]
        by_cases hbr : charAt s i = ']'
        · rw [if_pos hbr]
          simp [keysOk, hfr]
        · rw [if_neg hbr]
          by_cases hz : (run fuel (.value (s.drop i))).2.1 = 0
          · rw [if_pos hz]
            simp [keysOk, hfr]
          · rw [if_neg hz]
            refine ih _ ?_
            have hx := ih (.value (s.drop i)) trivial
            simp only [frameOK, keysOkL_append, keysOkL, hfr, hx, Bool.and_true,
              Bool.true_and, Bool.and_self]
      · rw [if_neg hlt]
        simp [keysOk, hfr]
    | dobj s i acc oob =>
      simp only [frameOK] at hfr
      simp only [run]
      by_cases hlt : i < s.length
      · rw [if_pos hlt]
        by_cases hbr : charAt s i = Char.ofNat 125
        · rw [if_pos hbr]
          simp [keysOk, hfr.1, hfr.2]
        · rw [if_neg hbr]
          by_cases hz : (run fuel (.value (s.drop i))).2.1 = 0
          · rw [if_pos hz]
            simp [keysOk, hfr.1, hfr.2]
          · rw [if_neg hz]
            split
            · next key heq =>
                set i3 := if charAt s (i + (run fuel (.value (s.drop i))).2.1) = ':'
                  then i + (run fuel (.value (s.drop i))).2.1 + 1
                  else i + (run fuel (.value (s.drop i))).2.1 with hi3
                by_cases hvz : (run fuel (.value (s.drop i3))).2.1 = 0
                · rw [if_pos hvz]
                  simp [keysOk, hfr.1, hfr.2]
                · rw [if_neg hvz]
                  refine ih _ ?_
                  have hv := ih (.value (s.drop i3)) trivial
                  simp only [frameOK]
                  by_cases hck : containsKey acc key = true
                  · rw [if_pos hck]
                    exact ⟨hfr.1, hfr.2⟩
                  · have hck' : containsKey acc key = false := by simpa using hck
                    rw [if_neg hck]
                    exact ⟨nodupKeys_append_single acc key _ hfr.1 hck',
                      by simp [keysOkD_append_single, hfr.2, hv]⟩
            · simp [keysOk, hfr.1, hfr.2]
      · rw [if_neg hlt]
        simp [keysOk, hfr.1, hfr.2]

/-- C6: every `Dict` produced by `parse` has unique keys (first occurrence
wins, later duplicates are discarded by `try_emplace`), and in particular
`parse "{\"a\":1,\"a\":2\}"` consumes all 13 characters — the duplicate
pair is fully parsed — yet returns the one-entry dictionary keeping the
first value (lines 205-242 of `src/main.cpp`). -/
theorem c6_dict_keys_unique_first_wins :
    (∀ s : List Char, keysOk (parse s).1 = true) ∧
    parse "\x7b\"a\":1,\"a\":2\x7d".toList = (.dict [("a".toList, .int 1)], 13) := by
  refine ⟨?_, rfl⟩
  intro s
  exact run_keysOk (2 * s.length + 4) (.value s) trivial

theorem takeDigits_append (s : List Char) :
    (takeDigits s).1 ++ (takeDigits s).2 = s := by
  induction s with
  | nil => rfl
  | cons c rest ih =>
    by_cases h : isDigit c = true
    · simp [takeDigits, h, ih]
    · simp [takeDigits, h]

theorem takeDigits_all (s : List Char) : (takeDigits s).1.all isDigit = true := by
  induction s with
  | nil => rfl
  | cons c rest ih =>
    by_cases h : isDigit c = true
    · simp [takeDigits, h, ih]
    · simp [takeDigits, h]

theorem takeDigits_rest_head (s : List Char) :
    ∀ c r, (takeDigits s).2 = c :: r → isDigit c = false := by
  induction s with
  | nil => intro c r h; simp [takeDigits] at h
  | cons c0 rest ih =>
    intro c r h
    by_cases hd : isDigit c0 = true
    · simp only [takeDigits, hd, if_true, ite_true] at h
      exact ih c r h
    · simp only [takeDigits, hd, Bool.false_eq_true, if_false, ite_false] at h
      cases h
      · simpa using hd

theorem takeDigits_exact (d rest : List Char) (hd : d.all isDigit = true)
    (hr : ∀ c r, rest = c :: r → isDigit c = false) :
    takeDigits (d ++ rest) = (d, rest) := by
  induction d with
  | nil =>
    cases rest with
    | nil => rfl
    | cons c r => simp [takeDigits, hr c r rfl]
  | cons c ds ih =>
    simp only [List.all_cons, Bool.and_eq_true] at hd
    simp [takeDigits, hd.1, ih hd.2]

theorem fracScan_append (u : List Char) :
    (fracScan u).1 ++ (fracScan u).2 = u := by
  cases u with
  | nil => rfl
  | cons c r =>
    by_cases h : c = '.'
    · simp [fracScan, h, takeDigits_append]
    · simp [fracScan, h]

theorem fracScan_fst (u : List Char) :
    (fracScan u).1 = [] ∨
      ∃ fd, (fracScan u).1 = '.' :: fd ∧ fd.all isDigit = true := by
  cases u with
  | nil => exact Or.inl rfl
  | cons c r =>
    by_cases h : c = '.'
    · subst h
      exact Or.inr ⟨(takeDigits r).1, by simp [fracScan], takeDigits_all r⟩
    · exact Or.inl (by simp [fracScan, h])

theorem takeDigits_of_all (d : List Char) (hd : d.all isDigit = true) :
    takeDigits d = (d, []) := by
  have h := takeDigits_exact d [] hd (fun c r hh => by cases hh)
  simpa using h

theorem isSign_of_isDigit (c : Char) (h : isDigit c = true) : isSign c = false := by
  cases hx : isSign c
  · rfl
  · rw [isSign] at hx
    rcases Bool.or_eq_true_iff.mp hx with hp | hp
    · rw [show c = '+' from by simpa using hp] at h
      exact absurd h (by decide)
    · rw [show c = '-' from by simpa using hp] at h
      exact absurd h (by decide)

theorem expScan_spec (u : List Char) :
    (∃ r, u = expScan u ++ r) ∧ expCheck (expScan u) = [] ∧
    (∀ c tl, expScan u = c :: tl → (c = 'e' ∨ c = 'E')) := by
  match u with
  | [] => exact ⟨⟨[], rfl⟩, rfl, fun c tl h => by cases h⟩
  | [e] => exact ⟨⟨[e], rfl⟩, rfl, fun c tl h => by cases h⟩
  | e :: c2 :: r3 =>
    by_cases he : (e = 'e' || e = 'E') = true
    · have he' : e = 'e' ∨ e = 'E' := by
        rcases Bool.or_eq_true_iff.mp he with h | h
        · exact Or.inl (by simpa using h)
        · exact Or.inr (by simpa using h)
      by_cases hs : isSign c2 = true
      · by_cases hed : (takeDigits r3).1 = []
        · rw [expScan, if_pos he, if_pos hs, if_pos hed]
          exact ⟨⟨e :: c2 :: r3, rfl⟩, rfl, fun c tl h => by cases h⟩
        · rw [expScan, if_pos he, if_pos hs, if_neg hed]
          refine ⟨⟨(takeDigits r3).2, by simp [takeDigits_append r3]⟩, ?_,
            fun c tl h => by cases h; exact he'⟩
          cases hq : (takeDigits r3).1 with
          | nil => exact absurd hq hed
          | cons d0 ds =>
            have hall : (d0 :: ds).all isDigit = true := hq ▸ takeDigits_all r3
            rw [expCheck, if_pos he, if_pos hs, takeDigits_of_all (d0 :: ds) hall]
            simp
      · by_cases hed : (takeDigits (c2 :: r3)).1 = []
        · rw [expScan, if_pos he, if_neg hs, if_pos hed]
          exact ⟨⟨e :: c2 :: r3, rfl⟩, rfl, fun c tl h => by cases h⟩
        · rw [expScan, if_pos he, if_neg hs, if_neg hed]
          refine ⟨⟨(takeDigits (c2 :: r3)).2, by simp [takeDigits_append (c2 :: r3)]⟩, ?_,
            fun c tl h => by cases h; exact he'⟩
          cases hq : (takeDigits (c2 :: r3)).1 with
          | nil => exact absurd hq hed
          | cons d0 ds =>
            have hall : (d0 :: ds).all isDigit = true := hq ▸ takeDigits_all (c2 :: r3)
            have hd0 : isDigit d0 = true := by
              have h := hall
              simp only [List.all_cons, Bool.and_eq_true] at h
              exact h.1
            rw [expCheck, if_pos he, if_neg (by simp [isSign_of_isDigit d0 hd0]),
              takeDigits_of_all (d0 :: ds) hall]
            simp
    · rw [expScan, if_neg he]
      exact ⟨⟨e :: c2 :: r3, rfl⟩, rfl, fun c tl h => by cases h⟩

theorem numTail_decomp (t m : List Char) (h : numTail t = some m) :
    (∃ r, t = m ++ r) ∧ fitsNumTail m = true := by
  rw [numTail] at h
  by_cases hd : (takeDigits t).1 = []
  · rw [if_pos hd] at h; cases h
  · rw [if_neg hd] at h
    injection h with hm
    subst hm
    have hall := takeDigits_all t
    have hexspec := expScan_spec (fracScan (takeDigits t).2).2
    have hhead : ∀ c r,
        (fracScan (takeDigits t).2).1 ++ expScan (fracScan (takeDigits t).2).2 = c :: r →
        isDigit c = false := by
      intro c r hcr
      rcases fracScan_fst (takeDigits t).2 with hf | ⟨fd, hf, _⟩
      · rw [hf, List.nil_append] at hcr
        rcases hexspec.2.2 c _ hcr with h1 | h1 <;> rw [h1] <;> decide
      · rw [hf] at hcr
        cases hcr
        decide
    have htd2 : takeDigits ((takeDigits t).1 ++
        ((fracScan (takeDigits t).2).1 ++ expScan (fracScan (takeDigits t).2).2)) =
        ((takeDigits t).1,
         (fracScan (takeDigits t).2).1 ++ expScan (fracScan (takeDigits t).2).2) :=
      takeDigits_exact _ _ hall hhead
    constructor
    · obtain ⟨r1, hr1⟩ := hexspec.1
      refine ⟨r1, ?_⟩
      conv_lhs => rw [← takeDigits_append t, ← fracScan_append (takeDigits t).2, hr1]
      simp [List.append_assoc]
    · have hfr2 : (fracScan ((fracScan (takeDigits t).2).1 ++
          expScan (fracScan (takeDigits t).2).2)).2 =
          expScan (fracScan (takeDigits t).2).2 := by
        rcases fracScan_fst (takeDigits t).2 with hf | ⟨fd, hf, hfd⟩
        · rw [hf, List.nil_append]
          cases hex : expScan (fracScan (takeDigits t).2).2 with
          | nil => rfl
          | cons c tl =>
            have hc : c = 'e' ∨ c = 'E' := hexspec.2.2 c tl hex
            rw [fracScan, if_neg (by rcases hc with h | h <;> rw [h] <;> decide)]
        · rw [hf]
          have htk : takeDigits (fd ++ expScan (fracScan (takeDigits t).2).2) =
              (fd, expScan (fracScan (takeDigits t).2).2) := by
            apply takeDigits_exact _ _ hfd
            intro c r hcr
            rcases hexspec.2.2 c _ hcr with h1 | h1 <;> rw [h1] <;> decide
          rw [List.cons_append, fracScan, if_pos rfl, htk]
      rw [List.append_assoc]
      simp only [fitsNumTail, htd2]
      rw [if_neg hd, hfr2]
      simp [hexspec.2.1]

theorem fitsNumTail_head (m : List Char) (h : fitsNumTail m = true) :
    ∃ d0 ds, m = d0 :: ds ∧ isDigit d0 = true := by
  cases m with
  | nil =>
    rw [fitsNumTail] at h
    simp [takeDigits] at h
  | cons d0 ds =>
    by_cases hd : isDigit d0 = true
    · exact ⟨d0, ds, rfl, hd⟩
    · rw [fitsNumTail] at h
      simp only [takeDigits, hd, Bool.false_eq_true, if_false, ite_false] at h
      simp at h

theorem numMatchAt_decomp (s m : List Char) (h : numMatchAt s = some m) :
    (∃ r, s = m ++ r) ∧ fitsNumGrammar m = true := by
  cases s with
  | nil => cases h
  | cons c rest =>
    rw [numMatchAt] at h
    by_cases hs : isSign c = true
    · rw [if_pos hs] at h
      cases hnt : numTail rest with
      | none => rw [hnt] at h; cases h
      | some m0 =>
        rw [hnt] at h
        have h' : some (c :: m0) = some m := h
        injection h' with hm
        subst hm
        obtain ⟨⟨r, hr⟩, hfit⟩ := numTail_decomp rest m0 hnt
        refine ⟨⟨r, by rw [List.cons_append, ← hr]⟩, ?_⟩
        rw [fitsNumGrammar, if_pos hs]
        exact hfit
    · rw [if_neg hs] at h
      obtain ⟨⟨r, hr⟩, hfit⟩ := numTail_decomp (c :: rest) m h
      obtain ⟨d0, ds, hm0, hd0⟩ := fitsNumTail_head m hfit
      refine ⟨⟨r, hr⟩, ?_⟩
      rw [hm0, fitsNumGrammar, if_neg (by simp [isSign_of_isDigit d0 hd0]), ← hm0]
      exact hfit

theorem numSearch_decomp (s m : List Char) (h : numSearch s = some m) :
    (∃ p r, s = p ++ m ++ r) ∧ fitsNumGrammar m = true := by
  induction s with
  | nil => cases h
  | cons c rest ih =>
    rw [numSearch] at h
    cases hm : numMatchAt (c :: rest) with
    | some m0 =>
      rw [hm] at h
      have h' : some m0 = some m := h
      injection h' with hm0
      subst hm0
      obtain ⟨⟨r, hr⟩, hfit⟩ := numMatchAt_decomp (c :: rest) m0 hm
      exact ⟨⟨[], r, by simpa using hr⟩, hfit⟩
    | none =>
      rw [hm] at h
      obtain ⟨⟨p, r, hpr⟩, hfit⟩ := ih h
      exact ⟨⟨c :: p, r, by simp [hpr]⟩, hfit⟩

theorem digit_or_sign_not_ws (c : Char) (h : (isDigit c || isSign c) = true) :
    c ∉ wsSet := by
  intro hmem
  have hall : ∀ x ∈ wsSet, (isDigit x || isSign x) = false := by decide
  rw [hall c hmem] at h
  exact Bool.false_ne_true h

/-- C3 as amended: for every input whose first character is a digit, `+`
or `-`, the parser runs the numeric branch, whose `regex_search` is
unanchored: it finds the leftmost grammar match anywhere in the remaining
input (not necessarily a prefix), the produced value is the `int`-else-
`double` interpretation of that matched text, and the consumed length is the
match's length — even when the match does not start at the current
position; if there is no match, or neither interpretation consumes it
entirely, the result is `(Null, 0)`.  Every match the search returns is a
contiguous slice of the input that fits the grammar
`[+-]?digits(.digits?)?([eE][+-]?digits)?` in full. -/
theorem c3_regex_search_unanchored :
    (∀ (c : Char) (rest : List Char), (isDigit c || isSign c) = true →
      parse (c :: rest) =
        (match numSearch (c :: rest) with
         | none => ((.null : JSONObject), 0)
         | some m =>
           match try_parse_int m with
           | some v => (.int v, m.length)
           | none =>
             match try_parse_double m with
             | some q => (.double q, m.length)
             | none => (.null, 0))) ∧
    (∀ s m, numSearch s = some m →
      (∃ p r, s = p ++ m ++ r) ∧ fitsNumGrammar m = true) := by
  constructor
  · intro c rest h
    have hws : c ∉ wsSet := digit_or_sign_not_ws c h
    have ht : c ≠ 't' := by rintro rfl; revert h; decide
    have hf : c ≠ 'f' := by rintro rfl; revert h; decide
    have hL : 2 * (c :: rest).length + 4 = (2 * rest.length + 5) + 1 := by
      simp [List.length_cons]; ring
    have hp : parseFull (c :: rest) = numBranch (c :: rest) := by
      rw [parseFull, hL, run_value_cons _ _ _ hws, if_neg ht, if_neg hf, if_pos h]
    rw [parse, hp, numBranch]
    cases hn : numSearch (c :: rest) with
    | none => simp
    | some m =>
      cases hi : try_parse_int m with
      | some v => simp [hi]
      | none =>
        cases hd : try_parse_double m with
        | some q => simp [hi, hd]
        | none => simp [hi, hd]
  · exact numSearch_decomp

/-- Witness for C3's amended law: the dispatch law applied at the input
`"1"`, and the decomposition applied at the input `"+a1"`, whose leftmost
match `"1"` starts only at position 2. -/
theorem c3_regex_search_unanchored_witness :
    ((isDigit '1' || isSign '1') = true ∧
      parse ('1' :: []) =
        (match numSearch ('1' :: []) with
         | none => ((.null : JSONObject), 0)
         | some m =>
           match try_parse_int m with
           | some v => (.int v, m.length)
           | none =>
             match try_parse_double m with
             | some q => (.double q, m.length)
             | none => (.null, 0))) ∧
    (numSearch "+a1".toList = some ['1'] ∧
      (∃ p r, "+a1".toList = p ++ ['1'] ++ r) ∧ fitsNumGrammar ['1'] = true) :=
  ⟨⟨by decide, c3_regex_search_unanchored.1 '1' [] (by decide)⟩,
   ⟨rfl, c3_regex_search_unanchored.2 "+a1".toList ['1'] rfl⟩⟩
